import Mathlib

/-!
Verification of the retrieval kernels of the `all-rag-techniques` notebooks.

Shallow embedding conventions:
* a Python `str` is modelled as `List Char`;
* Python `int` parameters are modelled as `ℤ`;
* floating-point similarity scores are idealized as exact rationals `ℚ`
  (and as `ℝ` where a square root is taken, namely `np.linalg.norm` and
  `np.std`);
* `range(start, stop, step)` and slicing `s[i:j]` are modelled by `pyRange`
  and `pySlice` below, following CPython semantics (clamping, negative
  indices counted from the end, `ValueError` on a zero step);
* Python's `list.sort` (Timsort) is a documented stable sort, and a stable
  sort's output is uniquely determined by the ordering and the input order,
  so it is modelled by the structural stable sort `List.insertionSort`;
* `np.argsort` with its default `kind` (introsort) is documented as NOT
  stable: equal values may come back in any order (only inputs small enough
  for its insertion-sort path keep the original tie order).  It is
  therefore modelled by the relation `is_np_argsort`, which admits every
  ascending permutation of the indices; the function `np_argsort` is one
  fixed admissible output of that relation, used only in statements that
  hold regardless of tie order;
* the retrievers are embedded parametrically in the list of similarity
  scores (respectively in the similarity function), because the scores of
  the Python code come from embedding vectors produced by an external
  provider; the sorting and ranking logic is embedded verbatim;
* a Python function that can raise is embedded with result type
  `Except String`, the error string being the exception message; a function
  with no `raise` and no fallible call is embedded as a total function.
-/

/-- Message of the `ValueError` raised by CPython for `range(a, b, 0)`. -/
def rangeStepError : String := "ValueError: range() arg 3 must not be zero"

/-- Message of the `ValueError` raised by `compute_breakpoints` for an
unrecognized method name (the quote characters around the method names in
the source message are elided here). -/
def invalidMethodError : String :=
  "Invalid method. Choose percentile, standard_deviation, or interquartile."

/-- Number of elements of the Python range `range(start, stop, step)` for a
nonzero step, following CPython: `max(0, ceil((stop-start)/step))` for a
positive step and `max(0, ceil((start-stop)/(-step)))` for a negative one. -/
def pyRangeLen (start stop step : ℤ) : ℕ :=
  if 0 < step then ((stop - start).toNat + step.toNat - 1) / step.toNat
  else ((start - stop).toNat + (-step).toNat - 1) / (-step).toNat

/-- Python `range(start, stop, step)` as a list, raising on a zero step. -/
def pyRange (start stop step : ℤ) : Except String (List ℤ) :=
  if step = 0 then .error rangeStepError
  else .ok ((List.range (pyRangeLen start stop step)).map (fun j : ℕ => start + (j : ℤ) * step))

/-- Resolution of one Python slice bound against a list of length `len`:
negative indices count from the end, then the result is clamped to `[0, len]`. -/
def pyIndex (len : ℕ) (i : ℤ) : ℕ :=
  if i < 0 then (len + i).toNat else min i.toNat len

/-- Python slice `l[i:j]` (with unit step). -/
def pySlice (l : List α) (i j : ℤ) : List α :=
  (l.take (pyIndex l.length j)).drop (pyIndex l.length i)

/-- Python slice `l[i:]` (no end bound). -/
def pySuffix (l : List α) (i : ℤ) : List α :=
  l.drop (pyIndex l.length i)

/-- Python slice `l[-k:]` for `k ≥ 1`, i.e. the last `min k len` elements;
for `k = 0` the slice `l[-0:]` is `l[0:]`, the whole list. -/
def pyTakeLast (k : ℕ) (l : List α) : List α :=
  if k = 0 then l else l.drop (l.length - k)

/-- Ceiling division `⌈L / s⌉` on naturals, the number of offsets produced by
`range(0, L, s)` for `s > 0`. -/
def ceilSteps (L s : ℕ) : ℕ := (L + s - 1) / s

/-- `chunk_text(text, n, overlap)` from `01_simple_rag_ru.ipynb` and
`03_chunk_size_selector_ru.ipynb`: windows `text[i:i+n]` for
`i in range(0, len(text), n - overlap)`.  The body performs no validation;
the only possible failure is the `ValueError` raised by `range` itself when
`n - overlap = 0`. -/
def chunk_text (text : List Char) (n overlap : ℤ) : Except String (List (List Char)) :=
  (pyRange 0 text.length (n - overlap)).map
    (fun idxs => idxs.map (fun i => pySlice text i (i + n)))

/-- Concatenation of a list of windows in which every window but the first
has its leading `overlap` characters removed; used to state the round-trip
property of `chunk_text`. -/
def reconstruct_overlap (overlap : ℤ) : List (List Char) → List Char
  | [] => []
  | w :: rest => w ++ (rest.map (fun s => s.drop overlap.toNat)).flatten

/-- `np.dot` on two vectors (idealized over `ℚ`). -/
def np_dot (v w : List ℚ) : ℚ := (List.zipWith (fun a b => a * b) v w).sum

/-- `np.linalg.norm`, the Euclidean norm `√(v ⬝ v)`. -/
noncomputable def np_linalg_norm (v : List ℚ) : ℝ :=
  Real.sqrt ((np_dot v v : ℚ) : ℝ)

/-- `cosine_similarity(vec1, vec2)` from the notebooks:
`np.dot(vec1, vec2) / (np.linalg.norm(vec1) * np.linalg.norm(vec2))`.
There is no guard of any kind: the division is performed unconditionally
(on a zero-norm input Python produces `nan`; in this real-valued embedding
the division by zero yields the junk value `0`). -/
noncomputable def cosine_similarity (v w : List ℚ) : ℝ :=
  ((np_dot v w : ℚ) : ℝ) / (np_linalg_norm v * np_linalg_norm w)

/-- `np.mean` (idealized over `ℚ`; the empty list gives the junk value `0`
where numpy gives `nan`). -/
def np_mean (l : List ℚ) : ℚ := l.sum / l.length

/-- `np.std`, the population standard deviation
`√(mean((x - mean(l))²))`. -/
noncomputable def np_std (l : List ℚ) : ℝ :=
  Real.sqrt ((l.map (fun x => ((x : ℝ) - ((np_mean l : ℚ) : ℝ)) ^ 2)).sum / l.length)

/-- `np.percentile(l, q)` with the default linear interpolation: with the
values sorted ascendingly and `h = (len - 1) * q / 100`, the result is
`s[⌊h⌋] + (h - ⌊h⌋) * (s[⌈h⌉] - s[⌊h⌋])`. -/
def np_percentile (l : List ℚ) (q : ℚ) : ℚ :=
  let s := List.insertionSort (fun a b => a ≤ b) l
  let h : ℚ := ((l.length : ℚ) - 1) * q / 100
  let a := s.getD (⌊h⌋).toNat 0
  let b := s.getD (⌈h⌉).toNat 0
  a + (h - (⌊h⌋ : ℤ)) * (b - a)

/-- The final line of `compute_breakpoints`:
`[i for i, sim in enumerate(similarities) if sim < threshold_value]`.
The threshold is an `ℝ` because the standard-deviation branch computes it
with a square root. -/
noncomputable def breakpoints_below (similarities : List ℚ) (tv : ℝ) : List ℕ :=
  (similarities.enum.filter (fun p => decide ((p.2 : ℝ) < tv))).map Prod.fst

/-- `compute_breakpoints(similarities, method, threshold)` from the semantic
chunking notebook: the threshold value is the `threshold`-th percentile for
`"percentile"`, `mean - threshold * std` for `"standard_deviation"`, and the
IQR outlier fence `q1 - 1.5 * (q3 - q1)` for `"interquartile"`; any other
method name raises `ValueError`.  The returned indices are those whose
similarity is strictly below the threshold value. -/
noncomputable def compute_breakpoints (similarities : List ℚ) (method : String)
    (threshold : ℚ) : Except String (List ℕ) :=
  if method = "percentile" then
    .ok (breakpoints_below similarities ((np_percentile similarities threshold : ℚ) : ℝ))
  else if method = "standard_deviation" then
    .ok (breakpoints_below similarities
      (((np_mean similarities : ℚ) : ℝ) - ((threshold : ℚ) : ℝ) * np_std similarities))
  else if method = "interquartile" then
    .ok (breakpoints_below similarities
      (((np_percentile similarities 25 : ℚ) : ℝ) -
        1.5 * (((np_percentile similarities 75 : ℚ) : ℝ) -
          ((np_percentile similarities 25 : ℚ) : ℝ))))
  else .error invalidMethodError

/-- The sentence delimiter `". "` on which the semantic chunking notebook
splits the text and with which it rejoins sentences. -/
def sentenceSep : List Char := ". ".toList

/-- The single trailing period appended to every non-final chunk. -/
def dotChar : List Char := ".".toList

/-- Loop of `split_into_chunks`: Python iterates over the breakpoints keeping
a running `start` index; each breakpoint `bp` emits
`". ".join(sentences[start:bp+1]) + "."` and sets `start = bp + 1`; after the
loop the remainder `". ".join(sentences[start:])` is appended. -/
def split_into_chunks_go (sentences : List (List Char)) : ℕ → List ℕ → List (List Char)
  | start, [] => [List.intercalate sentenceSep (pySuffix sentences (start : ℤ))]
  | start, bp :: rest =>
      (List.intercalate sentenceSep (pySlice sentences (start : ℤ) ((bp : ℤ) + 1)) ++ dotChar) ::
        split_into_chunks_go sentences (bp + 1) rest

/-- `split_into_chunks(sentences, breakpoints)` from the semantic chunking
notebook. -/
def split_into_chunks (sentences : List (List Char)) (breakpoints : List ℕ) :
    List (List Char) :=
  split_into_chunks_go sentences 0 breakpoints

/-- Modelled from the spec: the chunk assembler described in the
specification produces, for breakpoints `b0 < b1 < … < bm`, the chunks
`units[0..b0]`, `units[b0+1..b1]`, …, `units[bm+1..end]` — each breakpoint
index is the last unit of its chunk and the next chunk starts at the
following unit — rendered by joining with the sentence delimiter and, for
every non-final chunk, the compensating trailing period.  This definition is
written from the spec's slicing description (pairs of consecutive cut
points) to be compared with `split_into_chunks`. -/
def assemble_spec (units : List (List Char)) (bps : List ℕ) : List (List Char) :=
  ((((0 : ℕ) :: bps.map (fun b => b + 1)).zip bps).map
    (fun p => List.intercalate sentenceSep (pySlice units (p.1 : ℤ) ((p.2 : ℤ) + 1)) ++ dotChar)) ++
  [List.intercalate sentenceSep (pySuffix units (((bps.map (fun b => b + 1)).getLastD 0 : ℕ) : ℤ))]

/-- Generalization of `assemble_spec` to an arbitrary first cut point,
used to relate the accumulator loop of `split_into_chunks` to the spec's
description. -/
def assemble_spec_from (units : List (List Char)) (start : ℕ) (bps : List ℕ) :
    List (List Char) :=
  (((start :: bps.map (fun b => b + 1)).zip bps).map
    (fun p => List.intercalate sentenceSep (pySlice units (p.1 : ℤ) ((p.2 : ℤ) + 1)) ++ dotChar)) ++
  [List.intercalate sentenceSep (pySuffix units (((bps.map (fun b => b + 1)).getLastD start : ℕ) : ℤ))]

/-- The scored index list `[(i, scores[i]), …]` of `semantic_search` from
`01_simple_rag_ru.ipynb`, sorted descendingly by score with
`similarity_scores.sort(key=lambda x: x[1], reverse=True)` (a stable sort:
ties keep their original order). -/
def similarity_ranking {σ : Type} [LinearOrder σ] (scores : List σ) : List (ℕ × σ) :=
  List.insertionSort (fun a b => b.2 ≤ a.2) scores.enum

/-- `top_indices = [index for index, _ in similarity_scores[:k]]`. -/
def top_indices {σ : Type} [LinearOrder σ] (scores : List σ) (k : ℕ) : List ℕ :=
  ((similarity_ranking scores).take k).map Prod.fst

/-- `semantic_search(query, text_chunks, embeddings, k)` from
`01_simple_rag_ru.ipynb`, parametrized by the similarity scores of the
chunks against the query: rank all indices by score descending (stable) and
return the chunks at the first `k` indices. -/
def semantic_search {β σ : Type} [Inhabited β] [LinearOrder σ]
    (text_chunks : List β) (scores : List σ) (k : ℕ) : List β :=
  (top_indices scores k).map (fun i => text_chunks.getD i default)

/-- The contract of `np.argsort(scores)` with the default
`kind` (introsort): some permutation of all the indices that lists the
scores in ascending order.  Introsort is documented as not stable — above
its small-array insertion-sort cutoff equal values may come back in any
order — so the faithful model of the program is this relation; any `idxs`
satisfying it is an admissible output. -/
def is_np_argsort {σ : Type} [LinearOrder σ] (scores : List σ) (idxs : List ℕ) : Prop :=
  ∃ ps : List (ℕ × σ), ps.Perm scores.enum ∧
    ps.Pairwise (fun a b => a.2 ≤ b.2) ∧ idxs = ps.map Prod.fst

/-- One fixed admissible output of `np.argsort(scores)` (the stable
ascending one; see `np_argsort_admissible`).  Numpy's default argsort is
not stable, so this determinization is NOT faithful for tie order: it is
used only in statements that hold for every admissible output of
`is_np_argsort` (lengths, emptiness), never for tie order. -/
def np_argsort {σ : Type} [LinearOrder σ] (scores : List σ) : List ℕ :=
  (List.insertionSort (fun a b => a.2 ≤ b.2) scores.enum).map Prod.fst

/-- `top_indices = np.argsort(similarities)[-k:][::-1]` of `semantic_search`
from the semantic chunking notebook, built on the `np_argsort`
determinization (tie-order-independent statements only). -/
def top_indices_argsort {σ : Type} [LinearOrder σ] (scores : List σ) (k : ℕ) : List ℕ :=
  (pyTakeLast k (np_argsort scores)).reverse

/-- `semantic_search(query, text_chunks, chunk_embeddings, k)` from the
semantic chunking notebook, parametrized by the similarity scores: take the
last `k` entries of the ascending argsort, reverse them, and return the
chunks at those indices.  Built on the `np_argsort` determinization; the
faithful relational form is `is_semantic_search_argsort`. -/
def semantic_search_argsort {β σ : Type} [Inhabited β] [LinearOrder σ]
    (text_chunks : List β) (scores : List σ) (k : ℕ) : List β :=
  (top_indices_argsort scores k).map (fun i => text_chunks.getD i default)

/-- The contract of the argsort-based `semantic_search`: for some admissible
argsort output `idxs` (numpy guarantees no particular one on ties), the
result reads the chunks at `idxs[-k:][::-1]`. -/
def is_semantic_search_argsort {β σ : Type} [Inhabited β] [LinearOrder σ]
    (text_chunks : List β) (scores : List σ) (k : ℕ) (result : List β) : Prop :=
  ∃ idxs, is_np_argsort scores idxs ∧
    result = ((pyTakeLast k idxs).reverse).map (fun i => text_chunks.getD i default)

/-- A chunk of `05_contextual_chunk_headers_rag.ipynb`: text plus a text
embedding and a header embedding. -/
structure CHChunk where
  text : List Char
  embedding : List ℚ
  header_embedding : List ℚ

/-- The retrieval score of the header-augmented search:
`(sim_text + sim_header) / 2`. -/
def ch_score (sim : List ℚ → List ℚ → ℚ) (query_embedding : List ℚ) (c : CHChunk) : ℚ :=
  (sim query_embedding c.embedding + sim query_embedding c.header_embedding) / 2

/-- `semantic_search(query, chunks, k)` from
`05_contextual_chunk_headers_rag.ipynb`, parametrized by the similarity
function `sim` (the code uses `cosine_similarity` on provider-produced
vectors): score every chunk by the arithmetic mean of the query-to-text and
query-to-header similarities, sort descendingly (stable `list.sort`), and
return the first `k` chunks. -/
def semantic_search_headers (sim : List ℚ → List ℚ → ℚ) (query_embedding : List ℚ)
    (chunks : List CHChunk) (k : ℕ) : List CHChunk :=
  let similarities := chunks.map (fun c =>
    (c, (sim query_embedding c.embedding + sim query_embedding c.header_embedding) / 2))
  ((List.insertionSort (fun a b => b.2 ≤ a.2) similarities).take k).map Prod.fst

/-! ### Basic facts about the Python models -/

theorem pyIndex_natCast (len a : ℕ) : pyIndex len (a : ℤ) = min a len := by
  simp [pyIndex]

theorem take_min_length (l : List α) (b : ℕ) : l.take (min b l.length) = l.take b := by
  rcases le_total b l.length with hb | hb
  · rw [min_eq_left hb]
  · rw [min_eq_right hb, List.take_length]
    exact (List.take_of_length_le hb).symm

theorem pySlice_natCast (l : List α) (a b : ℕ) :
    pySlice l (a : ℤ) (b : ℤ) = (l.take b).drop a := by
  unfold pySlice
  rw [pyIndex_natCast, pyIndex_natCast, take_min_length]
  rcases le_or_lt a l.length with h | h
  · rw [min_eq_left h]
  · rw [min_eq_right h.le]
    have h2 : (l.take b).length ≤ l.length := by
      rw [List.length_take]
      exact min_le_right _ _
    rw [List.drop_eq_nil_of_le h2, List.drop_eq_nil_of_le (h2.trans h.le)]

theorem pySlice_window (l : List α) (o m : ℕ) :
    pySlice l (o : ℤ) ((o : ℤ) + (m : ℕ)) = (l.drop o).take m := by
  have h : ((o : ℤ) + (m : ℕ)) = ((o + m : ℕ) : ℤ) := by push_cast; ring
  rw [h, pySlice_natCast, List.drop_take]
  congr 1
  omega

theorem pySuffix_natCast (l : List α) (a : ℕ) : pySuffix l (a : ℤ) = l.drop a := by
  unfold pySuffix
  rw [pyIndex_natCast]
  rcases le_or_lt a l.length with h | h
  · rw [min_eq_left h]
  · rw [min_eq_right h.le]
    rw [List.drop_eq_nil_of_le le_rfl, List.drop_eq_nil_of_le h.le]

/-- With a negative step and `start = 0 ≤ stop`, a Python range is empty. -/
theorem pyRangeLen_neg (stop step : ℤ) (hstop : 0 ≤ stop) (hstep : step < 0) :
    pyRangeLen 0 stop step = 0 := by
  unfold pyRangeLen
  rw [if_neg (by omega)]
  have h1 : (0 - stop).toNat = 0 := by omega
  rw [h1]
  exact Nat.div_eq_of_lt (by omega)

theorem chunk_text_zero_step (text : List Char) (n overlap : ℤ) (h : n - overlap = 0) :
    chunk_text text n overlap = .error rangeStepError := by
  unfold chunk_text pyRange
  rw [h, if_pos rfl]
  rfl

theorem chunk_text_neg_step (text : List Char) (n overlap : ℤ) (h : n - overlap < 0) :
    chunk_text text n overlap = .ok [] := by
  unfold chunk_text pyRange
  rw [if_neg (by omega), pyRangeLen_neg _ _ (by omega) h]
  rfl

/-! ### Window characterization of `chunk_text` -/

theorem ceilSteps_eq_zero_iff (L s : ℕ) (hs : 0 < s) : ceilSteps L s = 0 ↔ L = 0 := by
  unfold ceilSteps
  rw [Nat.div_eq_zero_iff hs]
  omega

theorem ceilSteps_succ (L s : ℕ) (hs : 0 < s) (hL : 0 < L) :
    ceilSteps L s = ceilSteps (L - s) s + 1 := by
  unfold ceilSteps
  rcases le_or_lt L s with h | h
  · have h1 : L - s = 0 := by omega
    rw [h1]
    have h2 : (0 + s - 1) / s = 0 := Nat.div_eq_of_lt (by omega)
    have h3 : (L + s - 1) / s = 1 := Nat.div_eq_of_lt_le (by omega) (by omega)
    rw [h2, h3]
  · have h1 : L + s - 1 = (L - 1) + s := by omega
    have h2 : L - s + s - 1 = L - 1 := by omega
    rw [h1, h2, Nat.add_div_right _ hs]

theorem chunk_text_windows (text : List Char) (n overlap : ℤ)
    (h0 : 0 ≤ overlap) (hlt : overlap < n) :
    chunk_text text n overlap =
      .ok ((List.range (ceilSteps text.length (n - overlap).toNat)).map
        (fun j => (text.drop (j * (n - overlap).toNat)).take n.toNat)) := by
  unfold chunk_text pyRange pyRangeLen ceilSteps
  rw [if_neg (by omega), if_pos (by omega)]
  simp only [Except.map]
  have hlen : ((text.length : ℤ) - 0).toNat = text.length := by omega
  rw [hlen, List.map_map]
  congr 1
  apply List.map_congr_left
  intro j hj
  simp only [Function.comp_apply]
  have e1 : (((n - overlap).toNat : ℕ) : ℤ) = n - overlap := Int.toNat_of_nonneg (by omega)
  have e2 : ((n.toNat : ℕ) : ℤ) = n := Int.toNat_of_nonneg (by omega)
  have hco : (0 : ℤ) + (j : ℤ) * (n - overlap) = ((j * (n - overlap).toNat : ℕ) : ℤ) := by
    push_cast
    rw [e1]
    ring
  have hco2 : (0 : ℤ) + (j : ℤ) * (n - overlap) + n
      = ((j * (n - overlap).toNat + n.toNat : ℕ) : ℤ) := by
    push_cast
    rw [e1, e2]
    ring
  rw [hco2, hco, pySlice_natCast, List.drop_take]
  congr 1
  omega

/-! ### Round-trip reconstruction for overlapping windows -/

theorem windows_flatten_drop (s ov : ℕ) (hs : 0 < s) :
    ∀ (t : List Char),
      (((List.range (ceilSteps t.length s)).map (fun j => (t.drop (j * s)).take (s + ov))).map
        (fun w => w.drop ov)).flatten = t.drop ov := by
  suffices h : ∀ (c : ℕ) (t : List Char), ceilSteps t.length s = c →
      (((List.range (ceilSteps t.length s)).map (fun j => (t.drop (j * s)).take (s + ov))).map
        (fun w => w.drop ov)).flatten = t.drop ov by
    intro t
    exact h _ t rfl
  intro c
  induction c with
  | zero =>
    intro t hc
    have h0 : t.length = 0 := (ceilSteps_eq_zero_iff _ _ hs).mp hc
    have ht : t = [] := List.length_eq_zero.mp h0
    subst ht
    simp [hc]
  | succ c ih =>
    intro t hc
    have hL : 0 < t.length := by
      by_contra h0
      have hz : t.length = 0 := by omega
      rw [(ceilSteps_eq_zero_iff _ _ hs).mpr hz] at hc
      omega
    have hcount : ceilSteps (t.drop s).length s = c := by
      have := ceilSteps_succ t.length s hs hL
      rw [this] at hc
      rw [List.length_drop]
      omega
    rw [hc, List.range_succ_eq_map]
    simp only [List.map_cons, List.map_map, List.flatten_cons]
    have hhead : ((t.drop (0 * s)).take (s + ov)).drop ov = (t.drop ov).take s := by
      rw [Nat.zero_mul, List.drop_zero, List.drop_take]
      congr 1
      omega
    have htail :
        ((List.range c).map ((fun w => w.drop ov) ∘ (fun j => (t.drop (j * s)).take (s + ov)) ∘ Nat.succ)).flatten
          = (t.drop ov).drop s := by
      have hwin : ((fun w => w.drop ov) ∘ (fun j => (t.drop (j * s)).take (s + ov)) ∘ Nat.succ)
          = ((fun w => w.drop ov) ∘ (fun j => ((t.drop s).drop (j * s)).take (s + ov))) := by
        funext j
        simp only [Function.comp]
        rw [List.drop_drop]
        congr 2
        simp [Nat.succ_mul, Nat.mul_comm, Nat.add_comm]
      rw [hwin]
      have hih := ih (t.drop s) hcount
      rw [hcount] at hih
      rw [← List.map_map, hih, List.drop_drop, List.drop_drop]
      congr 1
      omega
    show ((t.drop (0 * s)).take (s + ov)).drop ov ++ _ = _
    rw [hhead, htail, List.take_append_drop]

theorem reconstruct_windows (text : List Char) (n overlap : ℤ)
    (h1 : 0 < overlap) (h2 : overlap < n) :
    reconstruct_overlap overlap ((List.range (ceilSteps text.length (n - overlap).toNat)).map
      (fun j => (text.drop (j * (n - overlap).toNat)).take n.toNat)) = text := by
  set s := (n - overlap).toNat with hs
  set ov := overlap.toNat with hov
  have hs0 : 0 < s := by omega
  have hnov : n.toNat = s + ov := by omega
  rcases Nat.eq_zero_or_pos text.length with hL | hL
  · have ht : text = [] := List.length_eq_zero.mp hL
    subst ht
    have hzero : ceilSteps 0 s = 0 := (ceilSteps_eq_zero_iff 0 s hs0).mpr rfl
    simp [hzero, reconstruct_overlap]
  · obtain ⟨c, hc⟩ : ∃ c, ceilSteps text.length s = c + 1 := by
      cases h : ceilSteps text.length s with
      | zero =>
        have := (ceilSteps_eq_zero_iff text.length s hs0).mp h
        omega
      | succ c => exact ⟨c, rfl⟩
    have hcount : ceilSteps (text.drop s).length s = c := by
      have hsucc := ceilSteps_succ text.length s hs0 hL
      rw [List.length_drop]
      omega
    rw [hc, List.range_succ_eq_map, List.map_cons]
    simp only [reconstruct_overlap]
    have hmaps : (List.map (fun j => (text.drop (j * s)).take n.toNat) ((List.range c).map Nat.succ))
        = (List.range c).map (fun j => ((text.drop s).drop (j * s)).take (s + ov)) := by
      rw [List.map_map]
      apply List.map_congr_left
      intro j hj
      simp only [Function.comp]
      rw [List.drop_drop, hnov]
      congr 2
      simp [Nat.succ_mul, Nat.mul_comm, Nat.add_comm]
    rw [hmaps]
    have hwfd := windows_flatten_drop s ov hs0 (text.drop s)
    rw [hcount] at hwfd
    rw [hwfd]
    have hdrop : (text.drop s).drop ov = text.drop (s + ov) := by
      rw [List.drop_drop]
    have hhead : (text.drop (0 * s)).take n.toNat = text.take (s + ov) := by
      rw [Nat.zero_mul, List.drop_zero, hnov]
    rw [hdrop, hhead]
    exact List.take_append_drop _ _

theorem ceilSteps_bounds (L s : ℕ) (hs : 0 < s) :
    L ≤ s * ceilSteps L s ∧ s * ceilSteps L s < L + s := by
  unfold ceilSteps
  have hdm := Nat.div_add_mod (L + s - 1) s
  have hmod := Nat.mod_lt (L + s - 1) hs
  omega

/-! ### Claims C4, C6, C8, C10: the fixed-window segmenter -/

/-- Claim C4, counterexample: the claim says only the final window can be
shorter than `n`, but `chunk_text "abcdefghi" 4 2` steps by `2` and returns
five windows `["abcd", "cdef", "efgh", "ghi", "i"]` in which the fourth
window `"ghi"` (index 3, not the final index 4) already has length `3 < 4`. -/
theorem c4_counterexample :
    chunk_text "abcdefghi".toList 4 2 =
      Except.ok ["abcd".toList, "cdef".toList, "efgh".toList, "ghi".toList, "i".toList] ∧
    (["abcd".toList, "cdef".toList, "efgh".toList, "ghi".toList, "i".toList].getD 3 []).length < 4 ∧
    3 < ["abcd".toList, "cdef".toList, "efgh".toList, "ghi".toList, "i".toList].length - 1 :=
  ⟨by rfl, by decide, by decide⟩

/-- Claim C4, amended: for every text and all parameters with
`0 ≤ overlap < n`, `chunk_text text n overlap` returns exactly the windows
at offsets `0, step, 2*step, …` with `step = n - overlap`, the window at
offset `o` being `text[o : o+n]`; windows reaching past the end of the text
are truncated, so with `overlap ≥ 2` windows other than the final one may
also be shorter than `n`.  In particular
`chunk_text "abcdefghij" 4 1 = ["abcd", "defg", "ghij", "j"]`. -/
theorem c4_amended (text : List Char) (n overlap : ℤ) (h0 : 0 ≤ overlap) (hlt : overlap < n) :
    chunk_text text n overlap =
      Except.ok ((List.range (ceilSteps text.length (n - overlap).toNat)).map
        (fun j => pySlice text ((j * (n - overlap).toNat : ℕ) : ℤ)
          (((j * (n - overlap).toNat : ℕ) : ℤ) + n))) ∧
    chunk_text "abcdefghij".toList 4 1 =
      Except.ok ["abcd".toList, "defg".toList, "ghij".toList, "j".toList] := by
  constructor
  · rw [chunk_text_windows text n overlap h0 hlt]
    congr 1
    apply List.map_congr_left
    intro j hj
    rw [← pySlice_window]
    congr 1
    omega
  · rfl

/-- Claim C4, witness for the amended theorem at `text = "abcde"`, `n = 3`,
`overlap = 1`. -/
theorem c4_witness :
    (0 : ℤ) ≤ 1 ∧ (1 : ℤ) < 3 ∧
    (chunk_text "abcde".toList 3 1 =
      Except.ok ((List.range (ceilSteps "abcde".toList.length ((3 : ℤ) - 1).toNat)).map
        (fun j => pySlice "abcde".toList ((j * ((3 : ℤ) - 1).toNat : ℕ) : ℤ)
          (((j * ((3 : ℤ) - 1).toNat : ℕ) : ℤ) + 3))) ∧
    chunk_text "abcdefghij".toList 4 1 =
      Except.ok ["abcd".toList, "defg".toList, "ghij".toList, "j".toList]) :=
  ⟨by decide, by decide, c4_amended "abcde".toList 3 1 (by decide) (by decide)⟩

/-- Claim C6, counterexample: the claim says the segmenter fails with an
`InvalidConfig` error whenever `overlap ≥ windowSize` or `windowSize ≤ 0`,
but `chunk_text "abc" 2 5` (overlap > windowSize) silently returns the
empty list, and `chunk_text "ab" 0 (-2)` (windowSize ≤ 0) silently returns
a list of empty windows; neither fails. -/
theorem c6_counterexample :
    chunk_text "abc".toList 2 5 = Except.ok [] ∧
    chunk_text "ab".toList 0 (-2) = Except.ok [[]] :=
  ⟨by rfl, by rfl⟩

/-- Claim C6, amended: `chunk_text` performs no configuration validation at
all.  With `overlap > windowSize` the step is negative, the underlying
`range` is empty and the whole text is silently dropped (`.ok []`); with
`overlap = windowSize` the only failure is the generic `ValueError` raised
by `range` for a zero step, not a configuration error; with
`windowSize ≤ 0 < step` it happily produces (empty or truncated) windows. -/
theorem c6_amended (text : List Char) (n overlap : ℤ) :
    (n < overlap → chunk_text text n overlap = Except.ok []) ∧
    (overlap = n → chunk_text text n overlap = Except.error rangeStepError) := by
  constructor
  · intro h
    exact chunk_text_neg_step text n overlap (by omega)
  · intro h
    exact chunk_text_zero_step text n overlap (by omega)

/-- Claim C6, witness for the amended theorem at `n = 2`, `overlap = 5` and
at `n = 2`, `overlap = 2`. -/
theorem c6_witness :
    ((2 : ℤ) < 5 ∧ chunk_text "abc".toList 2 5 = Except.ok []) ∧
    ((2 : ℤ) = 2 ∧ chunk_text "xy".toList 2 2 = Except.error rangeStepError) :=
  ⟨⟨by decide, (c6_amended "abc".toList 2 5).1 (by decide)⟩,
   ⟨rfl, (c6_amended "xy".toList 2 2).2 rfl⟩⟩

/-- Claim C8: for `windowSize > overlap > 0` the number of windows returned
by `chunk_text` is exactly the ceiling `⌈len(text) / (n - overlap)⌉`
(stated both via the closed form `ceilSteps` and by the defining bounds
`len ≤ step * count < len + step`, hence certainly within ±1 of the
ceiling), and concatenating the windows with every subsequent window's
leading `overlap` characters removed reconstructs the text exactly. -/
theorem c8_roundtrip (text : List Char) (n overlap : ℤ)
    (h1 : 0 < overlap) (h2 : overlap < n) :
    ∃ ws, chunk_text text n overlap = Except.ok ws ∧
      ws.length = ceilSteps text.length (n - overlap).toNat ∧
      text.length ≤ (n - overlap).toNat * ws.length ∧
      (n - overlap).toNat * ws.length < text.length + (n - overlap).toNat ∧
      reconstruct_overlap overlap ws = text := by
  refine ⟨_, chunk_text_windows text n overlap (by omega) h2, ?_, ?_, ?_, ?_⟩
  · rw [List.length_map, List.length_range]
  · rw [List.length_map, List.length_range]
    exact (ceilSteps_bounds text.length _ (by omega)).1
  · rw [List.length_map, List.length_range]
    exact (ceilSteps_bounds text.length _ (by omega)).2
  · exact reconstruct_windows text n overlap h1 h2

/-- Claim C8, witness at `text = "abcdefghij"`, `n = 4`, `overlap = 1`. -/
theorem c8_witness :
    (0 : ℤ) < 1 ∧ (1 : ℤ) < 4 ∧
    (∃ ws, chunk_text "abcdefghij".toList 4 1 = Except.ok ws ∧
      ws.length = ceilSteps "abcdefghij".toList.length ((4 : ℤ) - 1).toNat ∧
      "abcdefghij".toList.length ≤ ((4 : ℤ) - 1).toNat * ws.length ∧
      ((4 : ℤ) - 1).toNat * ws.length < "abcdefghij".toList.length + ((4 : ℤ) - 1).toNat ∧
      reconstruct_overlap 1 ws = "abcdefghij".toList) :=
  ⟨by decide, by decide, c8_roundtrip "abcdefghij".toList 4 1 (by decide) (by decide)⟩

/-- Claim C10: with `overlap > n` the step `n - overlap` is negative, the
underlying `range(0, len, step)` is empty and `chunk_text` returns `.ok []`
— the whole document is silently dropped with no error — while with
`overlap = n` the step is zero and the call aborts with the generic
`ValueError` from `range` (`rangeStepError`), not a configuration error. -/
theorem c10_no_validation (text : List Char) (n overlap : ℤ) (hn : 1 ≤ n) :
    (n < overlap → chunk_text text n overlap = Except.ok []) ∧
    (overlap = n → chunk_text text n overlap = Except.error rangeStepError) := by
  constructor
  · intro h
    exact chunk_text_neg_step text n overlap (by omega)
  · intro h
    exact chunk_text_zero_step text n overlap (by omega)

/-- Claim C10, witness at `n = 2` with `overlap = 5` and `overlap = 2`. -/
theorem c10_witness :
    ((1 : ℤ) ≤ 2 ∧ (2 : ℤ) < 5 ∧ chunk_text "hello".toList 2 5 = Except.ok []) ∧
    ((1 : ℤ) ≤ 2 ∧ chunk_text "hello".toList 2 2 = Except.error rangeStepError) :=
  ⟨⟨by decide, by decide, (c10_no_validation "hello".toList 2 5 (by decide)).1 (by decide)⟩,
   ⟨by decide, (c10_no_validation "hello".toList 2 2 (by decide)).2 rfl⟩⟩

/-! ### Claim C3: the chunk assembler -/

theorem split_into_chunks_go_length (sentences : List (List Char)) :
    ∀ (bps : List ℕ) (start : ℕ),
      (split_into_chunks_go sentences start bps).length = bps.length + 1 := by
  intro bps
  induction bps with
  | nil =>
    intro start
    rfl
  | cons bp rest ih =>
    intro start
    simp only [split_into_chunks_go, List.length_cons, ih]

theorem split_into_chunks_go_eq (units : List (List Char)) :
    ∀ (bps : List ℕ) (start : ℕ),
      split_into_chunks_go units start bps = assemble_spec_from units start bps := by
  intro bps
  induction bps with
  | nil =>
    intro start
    simp [split_into_chunks_go, assemble_spec_from]
  | cons bp rest ih =>
    intro start
    simp only [split_into_chunks_go, assemble_spec_from, List.map_cons, List.zip_cons_cons,
      List.getLastD_cons, List.cons_append]
    rw [ih]
    rfl

theorem split_into_chunks_eq_assemble_spec (units : List (List Char)) (bps : List ℕ) :
    split_into_chunks units bps = assemble_spec units bps := by
  unfold split_into_chunks assemble_spec
  rw [split_into_chunks_go_eq]
  rfl

/-- Claim C3: for every list of sentence units and every strictly ascending
in-range breakpoint list, `split_into_chunks` returns exactly
`len(breakpoints) + 1` chunks (always at least one; the whole unit sequence
joined as a single chunk when `breakpoints` is empty), and it coincides with
the spec-side assembler `assemble_spec` in which each breakpoint index is
the last unit of its chunk and the next chunk starts at the following unit;
with units `["A", "B", "C", "D."]` and breakpoints `[1]` the chunks are
`["A. B.", "C. D."]`. -/
theorem c3_assemble (units : List (List Char)) (bps : List ℕ)
    (hasc : bps.Chain' (· < ·)) (hrange : ∀ b ∈ bps, b < units.length) :
    (split_into_chunks units bps).length = bps.length + 1 ∧
    1 ≤ (split_into_chunks units bps).length ∧
    (bps = [] → split_into_chunks units bps = [List.intercalate sentenceSep units]) ∧
    split_into_chunks units bps = assemble_spec units bps ∧
    split_into_chunks ["A".toList, "B".toList, "C".toList, "D.".toList] [1] =
      ["A. B.".toList, "C. D.".toList] := by
  refine ⟨split_into_chunks_go_length units bps 0, ?_, ?_, ?_, ?_⟩
  · unfold split_into_chunks
    rw [split_into_chunks_go_length units bps 0]
    omega
  · intro h
    subst h
    show [List.intercalate sentenceSep (pySuffix units ((0 : ℕ) : ℤ))] = _
    rw [pySuffix_natCast, List.drop_zero]
  · exact split_into_chunks_eq_assemble_spec units bps
  · rfl

/-- Claim C3, witness at the spec's end-to-end scenario. -/
theorem c3_witness :
    ([1] : List ℕ).Chain' (fun a b => a < b) ∧
    (∀ b ∈ ([1] : List ℕ), b < (["A".toList, "B".toList, "C".toList, "D.".toList]).length) ∧
    ((split_into_chunks ["A".toList, "B".toList, "C".toList, "D.".toList] [1]).length = 1 + 1 ∧
     1 ≤ (split_into_chunks ["A".toList, "B".toList, "C".toList, "D.".toList] [1]).length ∧
     (([1] : List ℕ) = [] → split_into_chunks ["A".toList, "B".toList, "C".toList, "D.".toList] [1] =
        [List.intercalate sentenceSep ["A".toList, "B".toList, "C".toList, "D.".toList]]) ∧
     split_into_chunks ["A".toList, "B".toList, "C".toList, "D.".toList] [1] =
       assemble_spec ["A".toList, "B".toList, "C".toList, "D.".toList] [1] ∧
     split_into_chunks ["A".toList, "B".toList, "C".toList, "D.".toList] [1] =
       ["A. B.".toList, "C. D.".toList]) :=
  ⟨by simp, by decide,
   c3_assemble ["A".toList, "B".toList, "C".toList, "D.".toList] [1] (by simp) (by decide)⟩

/-! ### Claim C2: percentile breakpoints -/

theorem breakpoints_below_ratCast (sims : List ℚ) (tv : ℚ) :
    breakpoints_below sims ((tv : ℚ) : ℝ) =
      (sims.enum.filter (fun p => decide (p.2 < tv))).map Prod.fst := by
  unfold breakpoints_below
  congr 1
  apply List.filter_congr
  intro p hp
  simp [Rat.cast_lt]

theorem mem_enum_iff_get {α : Type} {l : List α} {p : ℕ × α} :
    p ∈ l.enum ↔ ∃ h : p.1 < l.length, p.2 = l.get ⟨p.1, h⟩ := by
  constructor
  · intro hp
    obtain ⟨i, hi, he⟩ := List.mem_iff_getElem.mp hp
    rw [List.enum_length] at hi
    rw [List.getElem_enum] at he
    subst he
    exact ⟨hi, by simp⟩
  · intro hcond
    obtain ⟨h, he⟩ := hcond
    refine List.mem_iff_getElem.mpr ⟨p.1, ?_, ?_⟩
    · rw [List.enum_length]
      exact h
    · rw [List.getElem_enum]
      obtain ⟨p1, p2⟩ := p
      simp only at he ⊢
      rw [he]
      simp [List.get_eq_getElem]

theorem np_percentile_scenario :
    np_percentile [0.9, 0.95, 0.2, 0.92] 50 = 0.91 := by
  have hceil : ⌈(3 / 2 : ℚ)⌉ = 2 := by
    rw [Int.ceil_eq_iff]
    norm_num
  have htwo : Int.toNat 2 = 2 := rfl
  norm_num [np_percentile, List.insertionSort, List.orderedInsert, List.getD, hceil, htwo]

theorem compute_breakpoints_scenario :
    compute_breakpoints [0.9, 0.95, 0.2, 0.92] "percentile" 50 = Except.ok [0, 2] := by
  unfold compute_breakpoints
  rw [if_pos rfl, breakpoints_below_ratCast, np_percentile_scenario]
  norm_num [List.enum, List.enumFrom, List.filter_cons, decide_eq_true_eq]

/-- Claim C2, counterexample: on similarities `[0.9, 0.95, 0.2, 0.92]` with
threshold `50` the 50th percentile is `0.91`, and `0.9 < 0.91` as well as
`0.2 < 0.91`, so `compute_breakpoints` returns `[0, 2]`, not `[2]` as the
claim's scenario states. -/
theorem c2_counterexample :
    compute_breakpoints [0.9, 0.95, 0.2, 0.92] "percentile" 50 ≠ Except.ok [2] := by
  rw [compute_breakpoints_scenario]
  intro h
  simp at h

/-- Claim C2, amended: for every non-empty list of similarity scores and
threshold `t ∈ [0, 100]`, `compute_breakpoints` with the `"percentile"`
method returns exactly the ascending list of indices `i` at which
`similarities[i]` is strictly less than the `t`-th percentile
(`np.percentile` with linear interpolation); on `[0.9, 0.95, 0.2, 0.92]`
with threshold `50` the percentile is `0.91` and the result is `[0, 2]`
(both `0.9` and `0.2` lie strictly below `0.91`). -/
theorem c2_percentile (sims : List ℚ) (t : ℚ) (hne : sims ≠ []) (h0 : 0 ≤ t)
    (h100 : t ≤ 100) :
    ∃ L, compute_breakpoints sims "percentile" t = Except.ok L ∧
      L.Pairwise (fun a b => a < b) ∧
      (∀ i, i ∈ L ↔ ∃ h : i < sims.length, sims.get ⟨i, h⟩ < np_percentile sims t) ∧
      compute_breakpoints [0.9, 0.95, 0.2, 0.92] "percentile" 50 = Except.ok [0, 2] := by
  refine ⟨(sims.enum.filter (fun p => decide (p.2 < np_percentile sims t))).map Prod.fst,
    ?_, ?_, ?_, compute_breakpoints_scenario⟩
  · unfold compute_breakpoints
    rw [if_pos rfl, breakpoints_below_ratCast]
  · rw [List.pairwise_map]
    have h1 : (sims.enum.map Prod.fst).Pairwise (fun a b => a < b) := by
      rw [List.enum_map_fst]
      exact List.sorted_lt_range _
    rw [List.pairwise_map] at h1
    exact h1.filter _
  · intro i
    constructor
    · intro hi
      obtain ⟨p, hpf, hpi⟩ := List.mem_map.mp hi
      have hpmem := List.mem_of_mem_filter hpf
      have hcond := List.of_mem_filter hpf
      rw [decide_eq_true_eq] at hcond
      obtain ⟨h, he⟩ := mem_enum_iff_get.mp hpmem
      subst hpi
      refine ⟨h, ?_⟩
      rw [← he]
      exact hcond
    · intro hex
      obtain ⟨h, hlt⟩ := hex
      apply List.mem_map.mpr
      refine ⟨(i, sims.get ⟨i, h⟩), ?_, rfl⟩
      apply List.mem_filter.mpr
      refine ⟨mem_enum_iff_get.mpr ⟨h, rfl⟩, ?_⟩
      rw [decide_eq_true_eq]
      exact hlt

/-- Claim C2, witness for the amended theorem at the scenario input. -/
theorem c2_witness :
    (([0.9, 0.95, 0.2, 0.92] : List ℚ) ≠ []) ∧ ((0 : ℚ) ≤ 50) ∧ ((50 : ℚ) ≤ 100) ∧
    (∃ L, compute_breakpoints [0.9, 0.95, 0.2, 0.92] "percentile" 50 = Except.ok L ∧
      L.Pairwise (fun a b => a < b) ∧
      (∀ i, i ∈ L ↔ ∃ h : i < ([0.9, 0.95, 0.2, 0.92] : List ℚ).length,
        ([0.9, 0.95, 0.2, 0.92] : List ℚ).get ⟨i, h⟩ <
          np_percentile [0.9, 0.95, 0.2, 0.92] 50) ∧
      compute_breakpoints [0.9, 0.95, 0.2, 0.92] "percentile" 50 = Except.ok [0, 2]) :=
  ⟨by simp, by norm_num, by norm_num,
   c2_percentile [0.9, 0.95, 0.2, 0.92] 50 (by simp) (by norm_num) (by norm_num)⟩

/-! ### Claim C5: cosine similarity -/

theorem np_dot_eq_sum : ∀ (v w : List ℚ) (N : ℕ), min v.length w.length ≤ N →
    np_dot v w = ∑ i ∈ Finset.range N, v.getD i 0 * w.getD i 0 := by
  intro v
  induction v with
  | nil =>
    intro w N hN
    simp only [np_dot, List.zipWith_nil_left, List.sum_nil]
    symm
    apply Finset.sum_eq_zero
    intro i hi
    simp [List.getD]
  | cons a v ih =>
    intro w N hN
    cases w with
    | nil =>
      simp only [np_dot, List.zipWith_nil_right, List.sum_nil]
      symm
      apply Finset.sum_eq_zero
      intro i hi
      simp [List.getD]
    | cons b w =>
      cases N with
      | zero =>
        exact absurd hN (not_le.mpr (lt_min (Nat.succ_pos _) (Nat.succ_pos _)))
      | succ M =>
        have hN' : min v.length w.length ≤ M := by
          rw [List.length_cons, List.length_cons, Nat.succ_min_succ] at hN
          omega
        rw [Finset.sum_range_succ']
        simp only [List.getD_cons_succ, List.getD_cons_zero]
        rw [← ih w M hN']
        simp only [np_dot, List.zipWith_cons_cons, List.sum_cons]
        ring

theorem dot_sum_cast (v w : List ℚ) (N : ℕ) (h : min v.length w.length ≤ N) :
    ((np_dot v w : ℚ) : ℝ) =
      ∑ i ∈ Finset.range N, ((v.getD i 0 : ℚ) : ℝ) * ((w.getD i 0 : ℚ) : ℝ) := by
  rw [np_dot_eq_sum v w N h]
  push_cast
  rfl

theorem norm_sq_sum (v : List ℚ) (N : ℕ) (h : v.length ≤ N) :
    ∑ i ∈ Finset.range N, ((v.getD i 0 : ℚ) : ℝ) ^ 2 = ((np_dot v v : ℚ) : ℝ) := by
  rw [np_dot_eq_sum v v N (by rw [min_self]; exact h)]
  push_cast
  apply Finset.sum_congr rfl
  intro i hi
  rw [pow_two]

theorem np_dot_le_norms (v w : List ℚ) :
    ((np_dot v w : ℚ) : ℝ) ≤ np_linalg_norm v * np_linalg_norm w := by
  rw [dot_sum_cast v w (max v.length w.length)
    (le_trans (min_le_left _ _) (le_max_left _ _))]
  unfold np_linalg_norm
  rw [← norm_sq_sum v (max v.length w.length) (le_max_left _ _),
    ← norm_sq_sum w (max v.length w.length) (le_max_right _ _)]
  exact Real.sum_mul_le_sqrt_mul_sqrt _ _ _

theorem neg_np_dot_le_norms (v w : List ℚ) :
    -(np_linalg_norm v * np_linalg_norm w) ≤ ((np_dot v w : ℚ) : ℝ) := by
  have h := Real.sum_mul_le_sqrt_mul_sqrt (Finset.range (max v.length w.length))
    (fun i => ((v.getD i 0 : ℚ) : ℝ)) (fun i => -((w.getD i 0 : ℚ) : ℝ))
  have h1 : ∑ i ∈ Finset.range (max v.length w.length),
      ((v.getD i 0 : ℚ) : ℝ) * -((w.getD i 0 : ℚ) : ℝ)
      = -∑ i ∈ Finset.range (max v.length w.length),
          ((v.getD i 0 : ℚ) : ℝ) * ((w.getD i 0 : ℚ) : ℝ) := by
    rw [← Finset.sum_neg_distrib]
    apply Finset.sum_congr rfl
    intro i hi
    ring
  have h2 : ∑ i ∈ Finset.range (max v.length w.length), (-((w.getD i 0 : ℚ) : ℝ)) ^ 2
      = ∑ i ∈ Finset.range (max v.length w.length), ((w.getD i 0 : ℚ) : ℝ) ^ 2 := by
    apply Finset.sum_congr rfl
    intro i hi
    ring
  simp only at h
  rw [h1, h2] at h
  rw [dot_sum_cast v w (max v.length w.length)
    (le_trans (min_le_left _ _) (le_max_left _ _))]
  unfold np_linalg_norm
  rw [← norm_sq_sum v (max v.length w.length) (le_max_left _ _),
    ← norm_sq_sum w (max v.length w.length) (le_max_right _ _)]
  linarith

/-- Claim C5, counterexample: `cosine_similarity` has no zero-norm guard and
no error path at all — its result type is a plain number, never an error.
On the zero vector (`np_dot [0,0] [0,0] = 0`, i.e. zero norm) the call
`cosine_similarity [0,0] [1,0]` still returns a value: the division by the
zero denominator is performed silently (`nan` in Python, the junk value `0`
in this real-valued embedding) instead of failing with `DegenerateVector`. -/
theorem c5_counterexample :
    np_dot [0, 0] [0, 0] = 0 ∧ cosine_similarity [0, 0] [1, 0] = 0 := by
  constructor
  · norm_num [np_dot]
  · unfold cosine_similarity
    have h : np_dot [0, 0] [1, 0] = 0 := by norm_num [np_dot]
    rw [h]
    norm_num

/-- Claim C5, amended: `cosine_similarity` performs no zero-norm guard (see
the counterexample: on a zero-norm input it silently divides by zero instead
of failing), but for every pair of equal-length inputs of non-zero norm the
result does lie in `[-1, 1]` (Cauchy–Schwarz). -/
theorem c5_range (v w : List ℚ) (hlen : v.length = w.length)
    (hv : 0 < np_dot v v) (hw : 0 < np_dot w w) :
    -1 ≤ cosine_similarity v w ∧ cosine_similarity v w ≤ 1 := by
  have hnv : 0 < np_linalg_norm v := Real.sqrt_pos.mpr (by exact_mod_cast hv)
  have hnw : 0 < np_linalg_norm w := Real.sqrt_pos.mpr (by exact_mod_cast hw)
  have hd : 0 < np_linalg_norm v * np_linalg_norm w := mul_pos hnv hnw
  unfold cosine_similarity
  constructor
  · rw [le_div_iff hd]
    have := neg_np_dot_le_norms v w
    linarith
  · rw [div_le_one hd]
    exact np_dot_le_norms v w

/-- Claim C5, witness for the amended theorem at `v = [1, 0]`, `w = [0, 1]`. -/
theorem c5_witness :
    (([1, 0] : List ℚ).length = ([0, 1] : List ℚ).length) ∧
    ((0 : ℚ) < np_dot [1, 0] [1, 0]) ∧ ((0 : ℚ) < np_dot [0, 1] [0, 1]) ∧
    (-1 ≤ cosine_similarity [1, 0] [0, 1] ∧ cosine_similarity [1, 0] [0, 1] ≤ 1) :=
  ⟨rfl, by norm_num [np_dot], by norm_num [np_dot],
   c5_range [1, 0] [0, 1] rfl (by norm_num [np_dot]) (by norm_num [np_dot])⟩

/-! ### Stable sorting of scored indices -/

theorem pair_get_sublist {α : Type} : ∀ (l : List α) (i j : ℕ) (hi : i < l.length)
    (hj : j < l.length), i < j → ([l.get ⟨i, hi⟩, l.get ⟨j, hj⟩]).Sublist l := by
  intro l
  induction l with
  | nil =>
    intro i j hi hj hij
    exact absurd hi (Nat.not_lt_zero i)
  | cons x t ih =>
    intro i j hi hj hij
    cases i with
    | zero =>
      cases j with
      | zero => omega
      | succ j' =>
        simp only [List.get_cons_zero, List.get_cons_succ]
        apply List.Sublist.cons₂
        rw [List.singleton_sublist, List.get_eq_getElem]
        exact List.getElem_mem _
    | succ i' =>
      cases j with
      | zero => omega
      | succ j' =>
        simp only [List.get_cons_succ]
        exact List.Sublist.cons x (ih i' j' (by simpa using hi) (by simpa using hj) (by omega))

theorem mem_enum_pair_sublist {σ : Type} {scores : List σ} {p q : ℕ × σ}
    (hp : p ∈ scores.enum) (hq : q ∈ scores.enum) (hpq : p.1 < q.1) :
    ([p, q]).Sublist scores.enum := by
  obtain ⟨hp1, hp2⟩ := mem_enum_iff_get.mp hp
  obtain ⟨hq1, hq2⟩ := mem_enum_iff_get.mp hq
  have hp1e : p.1 < scores.enum.length := by
    rw [List.enum_length]
    exact hp1
  have hq1e : q.1 < scores.enum.length := by
    rw [List.enum_length]
    exact hq1
  have hpe : scores.enum.get ⟨p.1, hp1e⟩ = p := by
    rw [List.get_eq_getElem, List.getElem_enum]
    obtain ⟨p1, p2⟩ := p
    simp only at hp2 ⊢
    rw [hp2]
    simp [List.get_eq_getElem]
  have hqe : scores.enum.get ⟨q.1, hq1e⟩ = q := by
    rw [List.get_eq_getElem, List.getElem_enum]
    obtain ⟨q1, q2⟩ := q
    simp only at hq2 ⊢
    rw [hq2]
    simp [List.get_eq_getElem]
  have h := pair_get_sublist scores.enum p.1 q.1 hp1e hq1e hpq
  rw [hpe, hqe] at h
  exact h

theorem enum_fst_injective {σ : Type} {scores : List σ} {p q : ℕ × σ}
    (hp : p ∈ scores.enum) (hq : q ∈ scores.enum) (h : p.1 = q.1) : p = q := by
  obtain ⟨hp1, hp2⟩ := mem_enum_iff_get.mp hp
  obtain ⟨hq1, hq2⟩ := mem_enum_iff_get.mp hq
  obtain ⟨p1, p2⟩ := p
  obtain ⟨q1, q2⟩ := q
  simp only at hp2 hq2 h
  subst h
  rw [Prod.mk.injEq]
  refine ⟨rfl, ?_⟩
  rw [hp2, hq2]

theorem enum_nodup {σ : Type} (scores : List σ) : scores.enum.Nodup := by
  have h : (scores.enum.map Prod.fst).Nodup := by
    rw [List.enum_map_fst]
    exact List.nodup_range _
  exact h.of_map

theorem sublist_pair_antisym {α : Type} : ∀ {l : List α} {a b : α},
    l.Nodup → ([a, b]).Sublist l → ([b, a]).Sublist l → a = b := by
  intro l
  induction l with
  | nil =>
    intro a b hnd hab hba
    have h := List.sublist_nil.mp hab
    simp at h
  | cons x t ih =>
    intro a b hnd hab hba
    have hx : x ∉ t := (List.nodup_cons.mp hnd).1
    have hnt : t.Nodup := (List.nodup_cons.mp hnd).2
    cases hab with
    | cons y h1 =>
      cases hba with
      | cons z h2 => exact ih hnt h1 h2
      | cons₂ h2 =>
        have hb : x ∈ t := h1.subset (by simp)
        exact absurd hb hx
    | cons₂ h1 =>
      cases hba with
      | cons z h2 =>
        have ha : x ∈ t := h2.subset (by simp)
        exact absurd ha hx
      | cons₂ h2 => rfl

/-- Stability and sortedness of the stable sort applied to an enumerated
score list: the output is pairwise in the order, and among order-equivalent
entries the original indices appear in increasing order. -/
theorem insertionSort_enum_lex {σ : Type} (le : ℕ × σ → ℕ × σ → Prop) [DecidableRel le]
    (htot : ∀ a b, le a b ∨ le b a)
    (htrans : ∀ a b c, le a b → le b c → le a c)
    (scores : List σ) :
    (List.insertionSort le scores.enum).Pairwise
      (fun p q => le p q ∧ (le q p → p.1 < q.1)) := by
  haveI hT : IsTotal (ℕ × σ) le := ⟨htot⟩
  haveI hR : IsTrans (ℕ × σ) le := ⟨fun a b c => htrans a b c⟩
  have hsorted : (List.insertionSort le scores.enum).Pairwise le :=
    List.sorted_insertionSort le scores.enum
  have hperm := List.perm_insertionSort le scores.enum
  have hnd : (List.insertionSort le scores.enum).Nodup :=
    hperm.nodup_iff.mpr (enum_nodup scores)
  rw [List.pairwise_iff_forall_sublist]
  intro a b hab
  have h1 : le a b := List.pairwise_iff_forall_sublist.mp hsorted hab
  refine ⟨h1, ?_⟩
  intro hba
  have hane : a ≠ b := List.pairwise_iff_forall_sublist.mp hnd hab
  have ham : a ∈ scores.enum := hperm.subset (hab.subset (by simp))
  have hbm : b ∈ scores.enum := hperm.subset (hab.subset (by simp))
  have hfst : a.1 ≠ b.1 := fun h => hane (enum_fst_injective ham hbm h)
  rcases Nat.lt_or_ge a.1 b.1 with h | h
  · exact h
  · have hblta : b.1 < a.1 := by omega
    have hsub : ([b, a]).Sublist scores.enum := mem_enum_pair_sublist hbm ham hblta
    have hsorted2 : ([b, a]).Sublist (List.insertionSort le scores.enum) :=
      List.pair_sublist_insertionSort hba hsub
    exact absurd (sublist_pair_antisym hnd hab hsorted2) hane

theorem similarity_ranking_pairwise {σ : Type} [LinearOrder σ] (scores : List σ) :
    (similarity_ranking scores).Pairwise
      (fun p q => q.2 < p.2 ∨ (p.2 = q.2 ∧ p.1 < q.1)) := by
  have h := insertionSort_enum_lex (fun a b : ℕ × σ => b.2 ≤ a.2)
    (fun a b => le_total b.2 a.2)
    (fun a b c hab hbc => le_trans hbc hab)
    scores
  unfold similarity_ranking
  apply h.imp
  intro p q hpq
  obtain ⟨h1, h2⟩ := hpq
  rcases eq_or_lt_of_le h1 with he | hlt
  · exact Or.inr ⟨he.symm, h2 (le_of_eq he.symm)⟩
  · exact Or.inl hlt

/-! ### Claims C1 and C7: the retrievers -/

theorem similarity_ranking_length {σ : Type} [LinearOrder σ] (scores : List σ) :
    (similarity_ranking scores).length = scores.length := by
  unfold similarity_ranking
  rw [List.length_insertionSort, List.enum_length]

theorem top_indices_length {σ : Type} [LinearOrder σ] (scores : List σ) (k : ℕ) :
    (top_indices scores k).length = min k scores.length := by
  unfold top_indices
  rw [List.length_map, List.length_take, similarity_ranking_length]

theorem semantic_search_length {β σ : Type} [Inhabited β] [LinearOrder σ]
    (chunks : List β) (scores : List σ) (k : ℕ) :
    (semantic_search chunks scores k).length = min k scores.length := by
  unfold semantic_search
  rw [List.length_map, top_indices_length]

theorem np_argsort_length {σ : Type} [LinearOrder σ] (scores : List σ) :
    (np_argsort scores).length = scores.length := by
  unfold np_argsort
  rw [List.length_map, List.length_insertionSort, List.enum_length]

theorem pyTakeLast_length {α : Type} (k : ℕ) (l : List α) (hk : 1 ≤ k) :
    (pyTakeLast k l).length = min k l.length := by
  unfold pyTakeLast
  rw [if_neg (by omega), List.length_drop]
  rcases le_total k l.length with h | h
  · rw [min_eq_left h]
    omega
  · rw [min_eq_right h]
    omega

theorem top_indices_argsort_length {σ : Type} [LinearOrder σ] (scores : List σ) (k : ℕ)
    (hk : 1 ≤ k) :
    (top_indices_argsort scores k).length = min k scores.length := by
  unfold top_indices_argsort
  rw [List.length_reverse, pyTakeLast_length k _ hk, np_argsort_length]

theorem semantic_search_argsort_length {β σ : Type} [Inhabited β] [LinearOrder σ]
    (chunks : List β) (scores : List σ) (k : ℕ) (hk : 1 ≤ k) :
    (semantic_search_argsort chunks scores k).length = min k scores.length := by
  unfold semantic_search_argsort
  rw [List.length_map, top_indices_argsort_length _ _ hk]

theorem pyTakeLast_sublist {α : Type} (k : ℕ) (l : List α) : (pyTakeLast k l).Sublist l := by
  unfold pyTakeLast
  rcases eq_or_ne k 0 with h0 | h0
  · rw [if_pos h0]
  · rw [if_neg h0]
    exact List.drop_sublist _ _

/-- The `np_argsort` determinization really is one admissible output of the
`np.argsort` contract. -/
theorem np_argsort_admissible {σ : Type} [LinearOrder σ] (scores : List σ) :
    is_np_argsort scores (np_argsort scores) := by
  haveI hT : IsTotal (ℕ × σ) (fun a b => a.2 ≤ b.2) := ⟨fun a b => le_total a.2 b.2⟩
  haveI hR : IsTrans (ℕ × σ) (fun a b => a.2 ≤ b.2) :=
    ⟨fun a b c hab hbc => le_trans hab hbc⟩
  exact ⟨List.insertionSort (fun a b : ℕ × σ => a.2 ≤ b.2) scores.enum,
    List.perm_insertionSort _ _, List.sorted_insertionSort _ _, rfl⟩

/-- The determinized argsort-based search is one admissible behavior of the
argsort-based `semantic_search` contract. -/
theorem semantic_search_argsort_admissible {β σ : Type} [Inhabited β] [LinearOrder σ]
    (chunks : List β) (scores : List σ) (k : ℕ) :
    is_semantic_search_argsort chunks scores k (semantic_search_argsort chunks scores k) :=
  ⟨np_argsort scores, np_argsort_admissible scores, rfl⟩

/-- Claim C1, counterexample: with two chunks of exactly equal scores and
`k = 2`, the sort-based retriever (Python's stable `list.sort`) returns the
chunks in original index order `[10, 20]`, but the argsort-based retriever
admits the result `[20, 10]`: for the admissible argsort output `[0, 1]`
(the one numpy's small-array insertion-sort path actually produces on two
elements) the trailing `[-k:][::-1]` reverses the tied indices, so the
claimed preservation of original chunk-index order among equal scores fails
for the argsort-based retriever. -/
theorem c1_counterexample :
    is_semantic_search_argsort [10, 20] [(5 : ℕ), 5] 2 [20, 10] ∧
    ([20, 10] : List ℕ) ≠ [10, 20] ∧
    semantic_search [10, 20] [(5 : ℕ), 5] 2 = [10, 20] := by
  refine ⟨⟨[0, 1], ⟨[(0, 5), (1, 5)], ?_, ?_, rfl⟩, ?_⟩, by decide, by decide⟩
  · exact List.Perm.refl _
  · decide
  · decide

/-- Claim C1, amended: for every non-empty chunk list with one score per
chunk and every `k ≥ 1`: the sort-based retriever returns exactly
`min(k, len(chunks))` results with non-increasing scores and breaks exact
ties by increasing original index (Python's `list.sort` is stable); the
argsort-based retriever returns exactly `min(k, len(chunks))` results with
non-increasing scores for EVERY output its argsort may produce, but
guarantees no particular order among exactly equal scores — numpy's default
argsort is not stable, and the trailing `[::-1]` additionally reverses
whatever tie order the argsort produced (see the counterexample). -/
theorem c1_ranked {β σ : Type} [Inhabited β] [LinearOrder σ]
    (chunks : List β) (scores : List σ) (k : ℕ)
    (hlen : scores.length = chunks.length) (hne : chunks ≠ []) (hk : 1 ≤ k) :
    (semantic_search chunks scores k).length = min k chunks.length ∧
    ((similarity_ranking scores).take k).Pairwise
      (fun p q => q.2 < p.2 ∨ (p.2 = q.2 ∧ p.1 < q.1)) ∧
    (∀ result : List β, is_semantic_search_argsort chunks scores k result →
      result.length = min k chunks.length) ∧
    (∀ ps : List (ℕ × σ), ps.Perm scores.enum → ps.Pairwise (fun a b => a.2 ≤ b.2) →
      ((pyTakeLast k ps).reverse).Pairwise (fun p q => q.2 ≤ p.2)) := by
  refine ⟨?_, ?_, ?_, ?_⟩
  · rw [semantic_search_length, hlen]
  · exact List.Pairwise.sublist (List.take_sublist _ _) (similarity_ranking_pairwise scores)
  · intro result hres
    obtain ⟨idxs, ⟨ps, hperm, hsort, hidx⟩, hre⟩ := hres
    subst hre
    subst hidx
    rw [List.length_map, List.length_reverse, pyTakeLast_length _ _ hk, List.length_map]
    rw [hperm.length_eq, List.enum_length, hlen]
  · intro ps hperm hsort
    rw [List.pairwise_reverse]
    exact List.Pairwise.sublist (pyTakeLast_sublist k ps) hsort

/-- Claim C1, witness for the amended theorem at chunks `[10, 20, 30]`,
scores `[5, 5, 7]`, `k = 2`. -/
theorem c1_witness :
    (([5, 5, 7] : List ℕ).length = ([10, 20, 30] : List ℕ).length) ∧
    (([10, 20, 30] : List ℕ) ≠ []) ∧ 1 ≤ 2 ∧
    ((semantic_search [10, 20, 30] [(5 : ℕ), 5, 7] 2).length = min 2 ([10, 20, 30] : List ℕ).length ∧
     ((similarity_ranking [(5 : ℕ), 5, 7]).take 2).Pairwise
       (fun p q => q.2 < p.2 ∨ (p.2 = q.2 ∧ p.1 < q.1)) ∧
     (∀ result : List ℕ, is_semantic_search_argsort [10, 20, 30] [(5 : ℕ), 5, 7] 2 result →
       result.length = min 2 ([10, 20, 30] : List ℕ).length) ∧
     (∀ ps : List (ℕ × ℕ), ps.Perm ([(5 : ℕ), 5, 7]).enum →
       ps.Pairwise (fun a b => a.2 ≤ b.2) →
       ((pyTakeLast 2 ps).reverse).Pairwise (fun p q => q.2 ≤ p.2))) :=
  ⟨rfl, by decide, by decide,
   c1_ranked [10, 20, 30] [(5 : ℕ), 5, 7] 2 rfl (by decide) (by decide)⟩

/-- Claim C7, counterexample: searching an empty corpus does not fail with
`EmptyCorpus` (there is no error path in either retriever); both simply
return the empty result list. -/
theorem c7_counterexample :
    semantic_search ([] : List ℕ) ([] : List ℕ) 5 = [] ∧
    semantic_search_argsort ([] : List ℕ) ([] : List ℕ) 5 = [] :=
  ⟨by decide, by decide⟩

/-- Claim C7, amended: `semantic_search` raises nothing on an empty corpus —
it returns the empty result list — and with `0 < len(chunks) < k` both
retrievers succeed and return all `len(chunks)` results. -/
theorem c7_short_corpus {β σ : Type} [Inhabited β] [LinearOrder σ]
    (chunks : List β) (scores : List σ) (k : ℕ) (hlen : scores.length = chunks.length) :
    (chunks = [] → semantic_search chunks scores k = [] ∧
      semantic_search_argsort chunks scores k = []) ∧
    (0 < chunks.length → chunks.length < k →
      (semantic_search chunks scores k).length = chunks.length ∧
      (semantic_search_argsort chunks scores k).length = chunks.length) := by
  constructor
  · intro h
    subst h
    have hs : scores = [] := List.length_eq_zero.mp (by rw [hlen]; rfl)
    subst hs
    constructor
    · simp [semantic_search, top_indices, similarity_ranking]
    · unfold semantic_search_argsort top_indices_argsort np_argsort pyTakeLast
      split
      · simp
      · simp
  · intro h1 h2
    constructor
    · rw [semantic_search_length, hlen]
      exact min_eq_right (le_of_lt h2)
    · rw [semantic_search_argsort_length _ _ _ (by omega), hlen]
      exact min_eq_right (le_of_lt h2)

/-- Claim C7, witness at a one-chunk corpus with `k = 3`. -/
theorem c7_witness :
    (([5] : List ℕ).length = ([10] : List ℕ).length) ∧
    (0 < ([10] : List ℕ).length) ∧ (([10] : List ℕ).length < 3) ∧
    ((semantic_search [10] [(5 : ℕ)] 3).length = ([10] : List ℕ).length ∧
     (semantic_search_argsort [10] [(5 : ℕ)] 3).length = ([10] : List ℕ).length) :=
  ⟨rfl, by decide, by decide,
   (c7_short_corpus [10] [(5 : ℕ)] 3 rfl).2 (by decide) (by decide)⟩

/-! ### Claim C9: header-augmented retrieval -/

/-- Claim C9: in the header-augmented variant, every chunk's retrieval score
is the arithmetic mean `(sim_text + sim_header) / 2` of the query-to-text
and query-to-header similarities (the function `ch_score`), and the
returned top-`k` consists of `min(k, len(chunks))` chunks drawn from the
input and ranked by this averaged score in non-increasing order. -/
theorem c9_header_mean (sim : List ℚ → List ℚ → ℚ) (query_embedding : List ℚ)
    (chunks : List CHChunk) (k : ℕ) :
    (semantic_search_headers sim query_embedding chunks k).length = min k chunks.length ∧
    (semantic_search_headers sim query_embedding chunks k).Pairwise
      (fun a b => ch_score sim query_embedding b ≤ ch_score sim query_embedding a) ∧
    (∀ c ∈ semantic_search_headers sim query_embedding chunks k, c ∈ chunks) := by
  haveI hT : IsTotal (CHChunk × ℚ) (fun a b => b.2 ≤ a.2) := ⟨fun a b => le_total b.2 a.2⟩
  haveI hR : IsTrans (CHChunk × ℚ) (fun a b => b.2 ≤ a.2) :=
    ⟨fun a b c hab hbc => le_trans hbc hab⟩
  refine ⟨?_, ?_, ?_⟩
  · simp only [semantic_search_headers]
    rw [List.length_map, List.length_take, List.length_insertionSort, List.length_map]
  · simp only [semantic_search_headers]
    rw [List.pairwise_map]
    have hsorted : (List.insertionSort (fun a b : CHChunk × ℚ => b.2 ≤ a.2)
        (chunks.map (fun c =>
          (c, (sim query_embedding c.embedding + sim query_embedding c.header_embedding) / 2)))).Pairwise
        (fun a b => b.2 ≤ a.2) :=
      List.sorted_insertionSort _ _
    have hmem : ∀ p ∈ List.insertionSort (fun a b : CHChunk × ℚ => b.2 ≤ a.2)
        (chunks.map (fun c =>
          (c, (sim query_embedding c.embedding + sim query_embedding c.header_embedding) / 2))),
        p.2 = ch_score sim query_embedding p.1 := by
      intro p hp
      have hp' : p ∈ chunks.map (fun c =>
          (c, (sim query_embedding c.embedding + sim query_embedding c.header_embedding) / 2)) :=
        (List.perm_insertionSort _ _).subset hp
      obtain ⟨c, hc, he⟩ := List.mem_map.mp hp'
      rw [← he]
      rfl
    refine List.Pairwise.imp_of_mem ?_
      (List.Pairwise.sublist (List.take_sublist _ _) hsorted)
    intro a b ha hb hab
    have ha' := (List.take_sublist _ _).subset ha
    have hb' := (List.take_sublist _ _).subset hb
    rw [← hmem a ha', ← hmem b hb']
    exact hab
  · intro c hc
    simp only [semantic_search_headers] at hc
    obtain ⟨p, hp, he⟩ := List.mem_map.mp hc
    have hp' := (List.take_sublist _ _).subset hp
    have hp2 : p ∈ chunks.map (fun c =>
        (c, (sim query_embedding c.embedding + sim query_embedding c.header_embedding) / 2)) :=
      (List.perm_insertionSort _ _).subset hp'
    obtain ⟨c', hc', he'⟩ := List.mem_map.mp hp2
    rw [← he, ← he']
    exact hc'

/-- Claim C9, witness: the header-augmented search theorem applied at the
concrete similarity function `np_dot`, query embedding `[1]`, two one-entry
chunks and `k = 1`. -/
theorem c9_witness :
    (semantic_search_headers np_dot [1]
      [⟨"a".toList, [1], [2]⟩, ⟨"b".toList, [3], [5]⟩] 1).length =
        min 1 ([⟨"a".toList, [1], [2]⟩, ⟨"b".toList, [3], [5]⟩] : List CHChunk).length ∧
    (semantic_search_headers np_dot [1]
      [⟨"a".toList, [1], [2]⟩, ⟨"b".toList, [3], [5]⟩] 1).Pairwise
      (fun a b => ch_score np_dot [1] b ≤ ch_score np_dot [1] a) ∧
    (∀ c ∈ semantic_search_headers np_dot [1]
      [⟨"a".toList, [1], [2]⟩, ⟨"b".toList, [3], [5]⟩] 1,
      c ∈ ([⟨"a".toList, [1], [2]⟩, ⟨"b".toList, [3], [5]⟩] : List CHChunk)) :=
  c9_header_mean np_dot [1] [⟨"a".toList, [1], [2]⟩, ⟨"b".toList, [3], [5]⟩] 1
